import Mathlib

/-!
Verification development for the trending-hashtag recommendation service
(`server.js`).  The pipeline under study is the `/generate` request handler:
keyword extraction (`extractKeywords`), candidate generation (three rules into
a JS `Set`), final assembly (`slice(0, limit)` + `#`-prefixing), and the
trend-snapshot read (`getTrending`).

JavaScript semantics relevant to the embedding, modelled explicitly below:
* `Set` iterates in insertion order; we model it as a duplicate-free list to
  which `addCand` appends only new elements.
* A plain object with string keys enumerates array-index-like keys first in
  ascending numeric order, then the remaining string keys in insertion order
  (ECMAScript `OrdinaryOwnPropertyKeys`); modelled by `jsObjectEntries`.
* `Array.prototype.sort` is a stable sort; with the comparator
  `(a, b) => b[1] - a[1]` its result is the unique stable descending-by-count
  reordering, realised here by `List.insertionSort freqGE`.
* `Array.prototype.slice(0, end)` clamps `end` into range, counting from the
  back when `end` is negative; modelled by `jsSliceTo`.
-/

/-- Model of JavaScript `s.startsWith(p)`. -/
def strStartsWith (s p : String) : Bool :=
  p.data.isPrefixOf s.data

/-- Model of JavaScript `s.trim()`: strip whitespace from both ends. -/
def jsTrim (s : String) : String :=
  String.mk (((s.data.dropWhile Char.isWhitespace).reverse.dropWhile Char.isWhitespace).reverse)

/-- Model of JavaScript `s.toLowerCase()` (ASCII range, as all the strings the
pipeline manipulates are ASCII). -/
def jsToLower (s : String) : String :=
  String.mk (s.data.map Char.toLower)

/-- Whether `sub` occurs as a contiguous run inside `l`. -/
def hasInfixRun (sub : List Char) : List Char → Bool
  | [] => sub.isEmpty
  | c :: cs => sub.isPrefixOf (c :: cs) || hasInfixRun sub cs

/-- Model of JavaScript `s.includes(sub)` (substring containment). -/
def jsIncludes (s sub : String) : Bool :=
  hasInfixRun sub.data s.data

/-- Model of JavaScript `arr.slice(0, stop)`: a negative `stop` counts from
the end of the array, and `stop` is clamped into `[0, length]`. -/
def jsSliceTo {α : Type} (l : List α) (stop : Int) : List α :=
  let len : Int := l.length
  let e : Int := if stop < 0 then max (len + stop) 0 else min stop len
  l.take e.toNat

/-- `true` iff the string begins with the character `'#'`. -/
def leadHash (x : String) : Bool :=
  match x.data with
  | c :: _ => '#' == c
  | [] => false

/-- `true` iff the string begins with two `'#'` characters. -/
def leadTwoHash (x : String) : Bool :=
  match x.data with
  | c :: d :: _ => '#' == c && '#' == d
  | _ => false

/-- A string that starts with exactly one `'#'` character. -/
def startsWithSingleHash (x : String) : Bool :=
  strStartsWith x "#" && !(strStartsWith x "##")

/-- Model of `t.replace(/^#/, "")`: removes at most one leading `'#'`. -/
def stripLeadingHash (t : String) : String :=
  match t.data with
  | c :: rest => if '#' == c then String.mk rest else t
  | [] => t

/-- Model of `k.replace(/\s+/g, "")`: removes every whitespace character. -/
def stripWs (s : String) : String :=
  String.mk (s.data.filter (fun c => !c.isWhitespace))

/-- Model of `sanitizeHtml(text, { allowedTags: [], allowedAttributes: {} })`
(third-party library): markup spans delimited by `<` and `>` are removed,
everything else passes through unchanged. -/
def stripTagsAux : List Char → Bool → List Char
  | [], _ => []
  | c :: cs, true => if c = '>' then stripTagsAux cs false else stripTagsAux cs true
  | c :: cs, false => if c = '<' then stripTagsAux cs true else c :: stripTagsAux cs false

def stripTags (s : String) : String :=
  String.mk (stripTagsAux s.data false)

/-- Model of `.replace(/\s+/g, " ")`: each maximal run of whitespace becomes a
single space.  The flag records whether the previous character was whitespace. -/
def collapseWsAux : List Char → Bool → List Char
  | [], _ => []
  | c :: cs, prevWs =>
    if c.isWhitespace then
      if prevWs then collapseWsAux cs true else ' ' :: collapseWsAux cs true
    else c :: collapseWsAux cs false

def collapseWs (s : String) : String :=
  String.mk (collapseWsAux s.data false)

/-- The cleaning pipeline of `extractKeywords`:
`sanitizeHtml(...).replace(/\s+/g, " ").trim().toLowerCase()`. -/
def cleanText (text : String) : String :=
  jsToLower (jsTrim (collapseWs (stripTags text)))

/-- Word characters used by the tokenizer (`natural.WordTokenizer` splits on
everything that is not alphanumeric or underscore). -/
def isWordChar (c : Char) : Bool :=
  c.isAlphanum || c = '_'

/-- Tokenization: maximal runs of word characters become tokens; the
accumulator holds the current run in reverse. -/
def tokenizeAux : List Char → List Char → List String
  | [], acc => if acc = [] then [] else [String.mk acc.reverse]
  | c :: cs, acc =>
    if isWordChar c then
      tokenizeAux cs (c :: acc)
    else if acc = [] then
      tokenizeAux cs []
    else
      String.mk acc.reverse :: tokenizeAux cs []

/-- Model of `new natural.WordTokenizer().tokenize(clean)`. -/
def tokenize (s : String) : List String :=
  tokenizeAux s.data []

/-- The token list of `extractKeywords` after the length filter
(`.filter(t => t.length > 2)`). -/
def filteredTokens (text : String) : List String :=
  (tokenize (cleanText text)).filter (fun t => 2 < t.length)

/-- A value stored in the plain object `freq`.  `num n` is an ordinary numeric
count.  `corrupt k` models the value stored for a token that collides with the
inherited truthy `Object.prototype.constructor`: the first occurrence stores
the string rendering of the `Object` function with `"1"` appended and each
further occurrence appends another `"1"` (`k` occurrences so far).  The
program never observes this string except through `ToNumber` inside the sort
comparator, where it is `NaN` whatever `k` is, so only the occurrence count is
tracked, not the characters. -/
inductive FreqVal where
  | num (n : Nat)
  | corrupt (k : Nat)
deriving DecidableEq

/-- `(freq[t] || 0) + 1` applied to the value already stored for `t`: a
numeric count increments (`0 || 0` and `n || 0` both step to `n + 1`); the
corrupted string is nonempty, hence truthy, so `|| 0` keeps it and `+ 1`
appends another `"1"`. -/
def incrVal : FreqVal → FreqVal
  | .num n => .num (n + 1)
  | .corrupt k => .corrupt (k + 1)

/-- `(freq[t] || 0) + 1` when no own property `t` exists yet, so `freq[t]`
consults the prototype chain of the plain object `{}`.  Tokens consist of
lowercase word characters only, and the only `Object.prototype` property
names of that shape are `"constructor"` and `"__proto__"`; for
`"constructor"` the inherited `Object` constructor is truthy, so the stored
value becomes a non-numeric string (`corrupt 1`); for every other key the
lookup yields `undefined` and the count starts at 1 (`"__proto__"` never
reaches this function, see `bump`). -/
def initVal (t : String) : FreqVal :=
  if t == "constructor" then .corrupt 1 else .num 1

/-- Own-property update of the insertion-ordered property store for one
token. -/
def bumpOwn : List (String × FreqVal) → String → List (String × FreqVal)
  | [], t => [(t, initVal t)]
  | (k, v) :: rest, t => if k = t then (k, incrVal v) :: rest else (k, v) :: bumpOwn rest t

/-- One step of `tokens.forEach(t => (freq[t] = (freq[t] || 0) + 1))` on
`freq = {}`, prototype chain included.  Assigning to `"__proto__"` invokes the
inherited accessor's setter with a string value, which is a no-op and creates
no own property (and since this is the only write path, an own `"__proto__"`
can never exist), so the store is unchanged; every other key becomes an
ordinary own data property via `bumpOwn`. -/
def bump (es : List (String × FreqVal)) (t : String) : List (String × FreqVal) :=
  if t == "__proto__" then es else bumpOwn es t

/-- The frequency map's own enumerable properties in property-creation
(first-occurrence) order. -/
def freqEntries (tokens : List String) : List (String × FreqVal) :=
  tokens.foldl bump []

/-- First-match numeric value of a key (0 when absent); the `corrupt` branch
is arbitrary, as this reading is only ever used on stores all of whose values
are numeric (`AllNum`). -/
def lookupNum : List (String × FreqVal) → String → Nat
  | [], _ => 0
  | (k, v) :: rest, t =>
    if k = t then (match v with | .num n => n | .corrupt _ => 0) else lookupNum rest t

/-- Every stored value is an ordinary numeric count (holds whenever the token
list avoids `"constructor"`). -/
def AllNum (es : List (String × FreqVal)) : Prop :=
  ∀ p ∈ es, ∃ n, p.2 = FreqVal.num n

/-- Numeric value of a list of decimal digit characters. -/
def digitsVal (cs : List Char) : Nat :=
  cs.foldl (fun n c => n * 10 + (c.toNat - 48)) 0

/-- ECMAScript array-index property keys: the canonical decimal numerals
(no leading zeros) below `2^32 - 1`. -/
def isArrayIndex (s : String) : Bool :=
  match s.data with
  | [] => false
  | c :: cs =>
    (c :: cs).all Char.isDigit && (c != '0' || cs.isEmpty) &&
      decide (digitsVal (c :: cs) < 4294967295)

def keyNum (e : String × FreqVal) : Nat :=
  digitsVal e.1.data

def idxLE (a b : String × FreqVal) : Prop :=
  keyNum a ≤ keyNum b

instance : DecidableRel idxLE :=
  fun a b => Nat.decLe (keyNum a) (keyNum b)

/-- Model of `Object.entries(freq)`: array-index-like keys first in ascending
numeric order, then the remaining string keys in insertion order. -/
def jsObjectEntries (es : List (String × FreqVal)) : List (String × FreqVal) :=
  List.insertionSort idxLE (es.filter (fun e => isArrayIndex e.1))
    ++ es.filter (fun e => !isArrayIndex e.1)

/-- Effective comparison performed by `.sort((a, b) => b[1] - a[1])` after
ECMAScript `SortCompare`: two numeric counts compare by descending value;
when either value is the corrupted non-numeric string the subtraction is
`NaN`, which `SortCompare` maps to `+0`, a tie.  `freqGEb a b = true` means a
stable sort keeps the earlier element `a` before `b`. -/
def freqGEb (a b : String × FreqVal) : Bool :=
  match a.2, b.2 with
  | .num m, .num n => n ≤ m
  | _, _ => true

def freqGE (a b : String × FreqVal) : Prop :=
  freqGEb a b = true

instance : DecidableRel freqGE :=
  fun a b => instDecidableEqBool (freqGEb a b) true

/-- Model of the stable JavaScript `Array.prototype.sort` with the comparator
above.  When every value is numeric the comparator is consistent, so the
ECMAScript-mandated stable result is uniquely determined and this insertion
sort produces exactly it; when a corrupted value sits among differing numeric
counts the comparator is inconsistent, ECMAScript leaves the order
implementation-defined, and this model fixes one deterministic outcome (no
theorem below relies on that case beyond entries all tying pairwise). -/
def sortFreqDesc (es : List (String × FreqVal)) : List (String × FreqVal) :=
  List.insertionSort freqGE es

/-- The enumerated frequency entries of the (cleaned, tokenized, filtered)
input text, in JavaScript object-enumeration order. -/
def entriesOf (text : String) : List (String × FreqVal) :=
  jsObjectEntries (freqEntries (filteredTokens text))

/-- `extractKeywords(text, top)` from `server.js`. -/
def extractKeywords (text : String) (top : Int) : List String :=
  (jsSliceTo (sortFreqDesc (entriesOf text)) top).map Prod.fst

/-- In-text frequency of a token: occurrence count among the filtered tokens. -/
def wordFreq (text : String) (t : String) : Nat :=
  (filteredTokens text).count t

/-- Variant of `extractKeywords` written from the claim's words: the frequency
map is assumed to enumerate in pure first-insertion order (no hoisting of
array-index-like keys).  Used to compare the claimed enumeration order with
the actual one. -/
def extractKeywordsInsOrder (text : String) (top : Int) : List String :=
  (jsSliceTo (sortFreqDesc (freqEntries (filteredTokens text))) top).map Prod.fst

/-- Model of `candidates.add(x)` on a JS `Set`: append if not yet present. -/
def addCand (s : List String) (x : String) : List String :=
  if x ∈ s then s else s ++ [x]

/-- Rule 1 inner loop for a single keyword `k`:
`trendList.forEach(tag => { if (tag.includes(k)) candidates.add(tag.replace(/^#/, "")) })`. -/
def rule1Step (tags : List String) (s : List String) (k : String) : List String :=
  tags.foldl (fun s' tag => if jsIncludes tag k then addCand s' (stripLeadingHash tag) else s') s

/-- Rule 1 (substring match) over all keywords. -/
def rule1 (kws tags : List String) (s : List String) : List String :=
  kws.foldl (rule1Step tags) s

/-- Rule 2 body for a single keyword:
`base = k.replace(/\s+/g, ""); add(base); add(base + "tok"); add(base + "tiktok")`. -/
def rule2Step (s : List String) (k : String) : List String :=
  let base := stripWs k
  addCand (addCand (addCand s base) (base ++ "tok")) (base ++ "tiktok")

/-- Rule 2 (keyword variations) over all keywords. -/
def rule2 (kws : List String) (s : List String) : List String :=
  kws.foldl rule2Step s

/-- The candidate set after rules 1 and 2 (which run unconditionally and do
not consult `limit`). -/
def rule12 (kws tags : List String) : List String :=
  rule2 kws (rule1 kws tags [])

/-- Rule 3 (fill from the trend list):
`for (const t of trendList) { if (candidates.size >= limit) break; candidates.add(t.replace(/^#/, "")) }`. -/
def rule3fill (s : List String) (tags : List String) (limit : Int) : List String :=
  match tags with
  | [] => s
  | t :: ts =>
    if (s.length : Int) ≥ limit then s
    else rule3fill (addCand s (stripLeadingHash t)) ts limit

/-- The full candidate-generation step of the `/generate` handler. -/
def generateCandidates (kws tags : List String) (limit : Int) : List String :=
  rule3fill (rule12 kws tags) tags limit

/-- The final assembly:
`Array.from(candidates).slice(0, limit).map(x => (x.startsWith("#") ? x : "#" + x))`. -/
def assemble (candidates : List String) (limit : Int) : List String :=
  (jsSliceTo candidates limit).map (fun x => if strStartsWith x "#" then x else "#" ++ x)

/-- Firestore server timestamp; an opaque object value (always truthy in JS,
so `updatedAt || null` collapses only the absent case to `null`). -/
structure Timestamp where
  ms : Nat
deriving DecidableEq

/-- One entry of a stored trend snapshot: `{ tag, score }`. -/
structure Hashtag where
  tag : String
  score : Int
deriving DecidableEq

/-- A stored trend snapshot document. -/
structure TrendDoc where
  updatedAt : Option Timestamp
  hashtags : List Hashtag
deriving DecidableEq

/-- The body of a `/generate` request; absent fields take the handler's
defaults (`text = ""`, `country = "global"`, `limit = 12`). -/
structure GenerateRequest where
  text : Option String
  country : Option String
  limit : Option Int
deriving DecidableEq

/-- Outcome of the `/generate` handler: the 400 validation response or the
success payload `{ generated, keywords, sourceUpdatedAt }`. -/
inductive HandlerResult where
  | badRequest (error : String)
  | ok (generated : List String) (keywords : List String) (sourceUpdatedAt : Option Timestamp)
deriving DecidableEq

def keywordsOf : HandlerResult → Option (List String)
  | .badRequest _ => none
  | .ok _ k _ => some k

def generatedOf : HandlerResult → List String
  | .badRequest _ => []
  | .ok g _ _ => g

/-- `getTrending(country)`: read the per-country snapshot (document id is the
lowercased country); a missing document yields `{ updatedAt: null, hashtags: [] }`. -/
def getTrending (store : List (String × TrendDoc)) (country : String) : TrendDoc :=
  match List.lookup (jsToLower country) store with
  | some doc => doc
  | none => { updatedAt := none, hashtags := [] }

/-- The trend tag list as the handler computes it:
`(trendDoc.hashtags || []).map(h => h.tag.toLowerCase())`. -/
def trendListOf (doc : TrendDoc) : List String :=
  doc.hashtags.map (fun h => jsToLower h.tag)

/-- The JS validation condition `!text || text.trim().length < 3` on the
defaulted `text` field. -/
def textInvalid (text : Option String) : Prop :=
  text.getD "" = "" ∨ (jsTrim (text.getD "")).length < 3

instance (text : Option String) : Decidable (textInvalid text) :=
  inferInstanceAs (Decidable (_ ∨ _))

/-- The `POST /generate` handler, parameterised by the keyword extractor so
that (non-)invocation of the extractor is expressible. -/
def generateHandlerWith (extract : String → Int → List String)
    (req : GenerateRequest) (store : List (String × TrendDoc)) : HandlerResult :=
  let text := req.text.getD ""
  let limit := req.limit.getD 12
  if text = "" ∨ (jsTrim text).length < 3 then
    .badRequest "Provide text"
  else
    let keywords := extract text 10
    let trendDoc := getTrending store (req.country.getD "global")
    let trendList := trendListOf trendDoc
    let candidates := generateCandidates keywords trendList limit
    let final := assemble candidates limit
    .ok final keywords trendDoc.updatedAt

/-- The `POST /generate` handler of `server.js`. -/
def generateHandler (req : GenerateRequest) (store : List (String × TrendDoc)) : HandlerResult :=
  generateHandlerWith extractKeywords req store


/-! ### Generic helper lemmas -/

theorem foldl_invariant {α β : Type} (P : α → Prop) (f : α → β → α) :
    ∀ (l : List β) (init : α), P init → (∀ a b, b ∈ l → P a → P (f a b)) → P (l.foldl f init) := by
  intro l
  induction l with
  | nil => intro init h _; exact h
  | cons b bs ih =>
    intro init h hstep
    exact ih _ (hstep init b (by simp) h) (fun a c hc ha => hstep a c (by simp [hc]) ha)

theorem string_data_inj {a b : String} (h : a.data = b.data) : a = b :=
  congrArg String.mk h

theorem data_hash_append (x : String) : ("#" ++ x).data = '#' :: x.data := rfl

theorem mem_addCand_self (s : List String) (x : String) : x ∈ addCand s x := by
  unfold addCand; split
  · assumption
  · simp

theorem mem_addCand_of_mem {s : List String} {x : String} (y : String) (h : x ∈ s) :
    x ∈ addCand s y := by
  unfold addCand; split
  · exact h
  · simp [h]

theorem mem_addCand {s : List String} {x y : String} (h : x ∈ addCand s y) : x ∈ s ∨ x = y := by
  unfold addCand at h; split at h
  · exact Or.inl h
  · simpa using h

theorem addCand_nodup {s : List String} (hs : s.Nodup) (y : String) : (addCand s y).Nodup := by
  unfold addCand
  split
  · exact hs
  · rename_i hy
    rw [List.nodup_append]
    exact ⟨hs, List.nodup_singleton y, fun a ha hb => by
      simp only [List.mem_singleton] at hb
      subst hb
      exact hy ha⟩

theorem length_addCand_le (s : List String) (y : String) :
    (addCand s y).length ≤ s.length + 1 := by
  unfold addCand; split
  · omega
  · simp

theorem jsSliceTo_sublist {α : Type} (l : List α) (stop : Int) :
    List.Sublist (jsSliceTo l stop) l :=
  List.take_sublist _ _

theorem mem_of_mem_jsSliceTo {α : Type} {l : List α} {stop : Int} {x : α}
    (h : x ∈ jsSliceTo l stop) : x ∈ l :=
  (jsSliceTo_sublist l stop).subset h

theorem length_jsSliceTo_le {α : Type} (l : List α) {stop : Int} (h : 0 ≤ stop) :
    ((jsSliceTo l stop).length : Int) ≤ stop := by
  unfold jsSliceTo
  simp only [List.length_take]
  rw [if_neg (by omega)]
  omega

/-! ### Leading-hash bridges -/

theorem strStartsWith_hash (x : String) : strStartsWith x "#" = leadHash x := by
  rcases x with ⟨data⟩
  cases data with
  | nil => rfl
  | cons c cs => simp [strStartsWith, leadHash, List.isPrefixOf]

theorem strStartsWith_hashhash (x : String) : strStartsWith x "##" = leadTwoHash x := by
  rcases x with ⟨data⟩
  cases data with
  | nil => rfl
  | cons c cs =>
    cases cs with
    | nil => simp [strStartsWith, leadTwoHash, List.isPrefixOf]
    | cons d ds => simp [strStartsWith, leadTwoHash, List.isPrefixOf]

theorem leadHash_hash_append (x : String) : leadHash ("#" ++ x) = true := by
  unfold leadHash
  rw [data_hash_append]
  simp

theorem leadTwoHash_hash_append (x : String) : leadTwoHash ("#" ++ x) = leadHash x := by
  unfold leadTwoHash leadHash
  rw [data_hash_append]
  cases h : x.data with
  | nil => rfl
  | cons c cs => simp

theorem leadHash_stripLeadingHash {x : String} (h : leadTwoHash x = false) :
    leadHash (stripLeadingHash x) = false := by
  rcases x with ⟨data⟩
  cases data with
  | nil => rfl
  | cons c cs =>
    unfold leadTwoHash at h
    unfold stripLeadingHash leadHash
    simp only
    by_cases hc : ('#' == c) = true
    · rw [if_pos hc]
      cases cs with
      | nil => rfl
      | cons d ds =>
        simp only [hc, Bool.true_and] at h
        simpa using h
    · rw [if_neg hc]
      simpa using hc

theorem hash_append_inj {x y : String} (h : "#" ++ x = "#" ++ y) : x = y := by
  have hd := congrArg String.data h
  rw [data_hash_append, data_hash_append] at hd
  exact string_data_inj (by injection hd)

/-! ### Tokenizer lemmas -/

theorem tokenizeAux_wordChars :
    ∀ (cs acc : List Char), (∀ c ∈ acc, isWordChar c = true) →
      ∀ t ∈ tokenizeAux cs acc, t.data ≠ [] ∧ ∀ c ∈ t.data, isWordChar c = true := by
  intro cs
  induction cs with
  | nil =>
    intro acc hacc t ht
    unfold tokenizeAux at ht
    split at ht
    · simp at ht
    · rename_i hne
      simp only [List.mem_singleton] at ht
      subst ht
      refine ⟨by simpa using hne, ?_⟩
      intro c hc
      simp only [List.mem_reverse] at hc
      exact hacc c hc
  | cons c cs ih =>
    intro acc hacc t ht
    unfold tokenizeAux at ht
    split at ht
    · rename_i hw
      exact ih (c :: acc) (fun d hd => by
        rcases List.mem_cons.mp hd with h | h
        · subst h; exact hw
        · exact hacc d h) t ht
    · split at ht
      · exact ih [] (by simp) t ht
      · rename_i hne
        rcases List.mem_cons.mp ht with h | h
        · subst h
          refine ⟨by simpa using hne, ?_⟩
          intro d hd
          simp only [List.mem_reverse] at hd
          exact hacc d hd
        · exact ih [] (by simp) t h

theorem mem_tokenize {s : String} {t : String} (h : t ∈ tokenize s) :
    t.data ≠ [] ∧ ∀ c ∈ t.data, isWordChar c = true :=
  tokenizeAux_wordChars s.data [] (by simp) t h

theorem wordChar_not_hash {c : Char} (h : isWordChar c = true) : ('#' == c) = false := by
  by_cases hc : c = '#'
  · subst hc
    exact absurd h (by decide)
  · simpa using fun he => hc he.symm

theorem wordChar_not_ws {c : Char} (h : isWordChar c = true) : c.isWhitespace = false := by
  by_cases hw : c.isWhitespace = true
  · have : c = ' ' ∨ c = '\t' ∨ c = '\r' ∨ c = '\n' := by
      simpa [Char.isWhitespace, or_assoc] using hw
    rcases this with hc | hc | hc | hc <;> (subst hc; exact absurd h (by decide))
  · simpa using hw

theorem token_leadHash_false {t : String} (_hne : t.data ≠ [])
    (h : ∀ c ∈ t.data, isWordChar c = true) : leadHash t = false := by
  unfold leadHash
  cases hd : t.data with
  | nil => rfl
  | cons c cs => exact wordChar_not_hash (h c (by rw [hd]; simp))

theorem token_stripWs_eq {t : String} (h : ∀ c ∈ t.data, isWordChar c = true) :
    stripWs t = t := by
  unfold stripWs
  refine string_data_inj ?_
  show t.data.filter (fun c => !c.isWhitespace) = t.data
  refine List.filter_eq_self.mpr ?_
  intro c hc
  rw [wordChar_not_ws (h c hc)]
  rfl

/-! ### Frequency-map lemmas -/

theorem keys_bumpOwn (es : List (String × FreqVal)) (t : String) :
    (bumpOwn es t).map Prod.fst =
      if t ∈ es.map Prod.fst then es.map Prod.fst else es.map Prod.fst ++ [t] := by
  induction es with
  | nil => simp [bumpOwn]
  | cons p rest ih =>
    rcases p with ⟨k, v⟩
    unfold bumpOwn
    by_cases hk : k = t
    · subst hk
      simp
    · simp only [if_neg hk, List.map_cons, ih]
      by_cases ht : t ∈ rest.map Prod.fst
      · simp [ht, hk, Ne.symm hk]
      · simp [ht, hk, Ne.symm hk]

theorem keys_bump_cases (es : List (String × FreqVal)) (t : String) :
    (bump es t).map Prod.fst = es.map Prod.fst ∨
      (bump es t).map Prod.fst = es.map Prod.fst ++ [t] := by
  unfold bump
  split
  · exact Or.inl rfl
  · rw [keys_bumpOwn]
    split
    · exact Or.inl rfl
    · exact Or.inr rfl

theorem keys_bump_nodup {es : List (String × FreqVal)} (h : (es.map Prod.fst).Nodup)
    (t : String) : ((bump es t).map Prod.fst).Nodup := by
  unfold bump
  split
  · exact h
  · rw [keys_bumpOwn]
    split
    · exact h
    · rename_i ht
      rw [List.nodup_append]
      exact ⟨h, List.nodup_singleton t, fun a ha hb => by
        simp only [List.mem_singleton] at hb
        subst hb
        exact ht ha⟩

theorem mem_keys_bump_strong {es : List (String × FreqVal)} {t k : String}
    (h : k ∈ (bump es t).map Prod.fst) :
    k ∈ es.map Prod.fst ∨ (k = t ∧ t ≠ "__proto__") := by
  unfold bump at h
  split at h
  · exact Or.inl h
  · rename_i hproto
    rw [keys_bumpOwn] at h
    split at h
    · exact Or.inl h
    · rcases List.mem_append.mp h with h2 | h2
      · exact Or.inl h2
      · simp only [List.mem_singleton] at h2
        exact Or.inr ⟨h2, by simpa using hproto⟩

theorem mem_keys_bump {es : List (String × FreqVal)} {t k : String}
    (h : k ∈ (bump es t).map Prod.fst) : k ∈ es.map Prod.fst ∨ k = t :=
  (mem_keys_bump_strong h).imp id And.left

theorem keys_bump_mono {es : List (String × FreqVal)} {k : String} (t : String)
    (h : k ∈ es.map Prod.fst) : k ∈ (bump es t).map Prod.fst := by
  rcases keys_bump_cases es t with hc | hc
  · rw [hc]
    exact h
  · rw [hc]
    exact List.mem_append_left _ h

theorem keys_bump_self {es : List (String × FreqVal)} {t : String} (ht : t ≠ "__proto__") :
    t ∈ (bump es t).map Prod.fst := by
  unfold bump
  rw [if_neg (by simpa using ht), keys_bumpOwn]
  split
  · assumption
  · simp

theorem allNum_nil : AllNum [] := by
  intro p hp
  simp at hp

theorem allNum_bumpOwn {t : String} (ht : t ≠ "constructor") :
    ∀ {es : List (String × FreqVal)}, AllNum es → AllNum (bumpOwn es t) := by
  intro es
  induction es with
  | nil =>
    intro _ p hp
    unfold bumpOwn at hp
    simp only [List.mem_singleton] at hp
    subst hp
    refine ⟨1, ?_⟩
    show initVal t = FreqVal.num 1
    unfold initVal
    rw [if_neg (by simpa using ht)]
  | cons q rest ih =>
    intro hall p hp
    rcases q with ⟨k, v⟩
    unfold bumpOwn at hp
    split at hp
    · rcases List.mem_cons.mp hp with h | h
      · subst h
        rcases hall (k, v) (by simp) with ⟨n, hn⟩
        have hv : v = FreqVal.num n := hn
        refine ⟨n + 1, ?_⟩
        show incrVal v = FreqVal.num (n + 1)
        rw [hv]
        rfl
      · exact hall p (by simp [h])
    · rcases List.mem_cons.mp hp with h | h
      · subst h
        exact hall (k, v) (by simp)
      · exact ih (fun q hq => hall q (by simp [hq])) p h

theorem allNum_bump {es : List (String × FreqVal)} {t : String} (ht : t ≠ "constructor")
    (h : AllNum es) : AllNum (bump es t) := by
  unfold bump
  split
  · exact h
  · exact allNum_bumpOwn ht h

theorem allNum_freqEntries {ts : List String} (hc : "constructor" ∉ ts) :
    AllNum (freqEntries ts) := by
  unfold freqEntries
  exact foldl_invariant AllNum bump ts [] allNum_nil
    (fun es t htm hes => allNum_bump (fun he => hc (he ▸ htm)) hes)

theorem lookupNum_bumpOwn_self :
    ∀ (es : List (String × FreqVal)) (t : String), t ≠ "constructor" → AllNum es →
      lookupNum (bumpOwn es t) t = lookupNum es t + 1 := by
  intro es
  induction es with
  | nil =>
    intro t ht _
    show lookupNum [(t, initVal t)] t = 0 + 1
    unfold initVal
    rw [if_neg (by simpa using ht)]
    simp [lookupNum]
  | cons q rest ih =>
    intro t ht hall
    rcases q with ⟨k, v⟩
    unfold bumpOwn
    by_cases hk : k = t
    · subst hk
      rcases hall (k, v) (by simp) with ⟨n, hn⟩
      have hv : v = FreqVal.num n := hn
      simp [lookupNum, hv, incrVal]
    · simp only [if_neg hk]
      simp [lookupNum, hk, ih t ht (fun q hq => hall q (by simp [hq]))]

theorem lookupNum_bump_self {es : List (String × FreqVal)} {t : String}
    (hp : t ≠ "__proto__") (hc : t ≠ "constructor") (hall : AllNum es) :
    lookupNum (bump es t) t = lookupNum es t + 1 := by
  unfold bump
  rw [if_neg (by simpa using hp)]
  exact lookupNum_bumpOwn_self es t hc hall

theorem lookupNum_bumpOwn_ne :
    ∀ (es : List (String × FreqVal)) {t k : String}, k ≠ t →
      lookupNum (bumpOwn es t) k = lookupNum es k := by
  intro es
  induction es with
  | nil =>
    intro t k hk
    show lookupNum [(t, initVal t)] k = 0
    simp [lookupNum, Ne.symm hk]
  | cons q rest ih =>
    intro t k hk
    rcases q with ⟨k2, v⟩
    unfold bumpOwn
    by_cases hk2 : k2 = t
    · subst hk2
      simp [lookupNum, Ne.symm hk]
    · simp only [if_neg hk2]
      by_cases hk3 : k2 = k
      · subst hk3
        simp [lookupNum]
      · simp [lookupNum, Ne.symm hk3, ih hk]

theorem lookupNum_bump_ne {es : List (String × FreqVal)} {t k : String} (hk : k ≠ t) :
    lookupNum (bump es t) k = lookupNum es k := by
  unfold bump
  split
  · rfl
  · exact lookupNum_bumpOwn_ne es hk

theorem lookupNum_foldl_bump :
    ∀ (ts : List String) (es : List (String × FreqVal)) (k : String),
      "constructor" ∉ ts → k ≠ "__proto__" → AllNum es →
      lookupNum (ts.foldl bump es) k = lookupNum es k + ts.count k := by
  intro ts
  induction ts with
  | nil =>
    intro es k _ _ _
    simp
  | cons t ts ih =>
    intro es k hc hkp hall
    have hc2 : "constructor" ∉ ts := fun h => hc (by simp [h])
    have htc : t ≠ "constructor" := fun h => hc (by simp [h])
    have hall2 : AllNum (bump es t) := allNum_bump htc hall
    simp only [List.foldl_cons]
    rw [ih (bump es t) k hc2 hkp hall2]
    by_cases hpt : t = "__proto__"
    · have hb : bump es t = es := by
        unfold bump
        rw [if_pos (by simpa using hpt)]
      have hkt : k ≠ t := fun h => hkp (h.trans hpt)
      rw [hb, List.count_cons_of_ne hkt]
    · by_cases hkt : k = t
      · subst hkt
        rw [lookupNum_bump_self hkp htc hall, List.count_cons_self]
        omega
      · rw [lookupNum_bump_ne hkt, List.count_cons_of_ne hkt]

theorem freqEntries_keys_nodup (ts : List String) : ((freqEntries ts).map Prod.fst).Nodup := by
  unfold freqEntries
  exact foldl_invariant (fun es => (es.map Prod.fst).Nodup) bump ts []
    (by simp) (fun es t _ h => keys_bump_nodup h t)

theorem mem_value_eq_lookupNum :
    ∀ (es : List (String × FreqVal)), (es.map Prod.fst).Nodup → AllNum es →
      ∀ p ∈ es, p.2 = FreqVal.num (lookupNum es p.1) := by
  intro es
  induction es with
  | nil => intro _ _ p hp; simp at hp
  | cons q rest ih =>
    intro hnd hall p hp
    rcases q with ⟨k, v⟩
    simp only [List.map_cons, List.nodup_cons] at hnd
    rcases List.mem_cons.mp hp with h | h
    · subst h
      rcases hall (k, v) (by simp) with ⟨n, hn⟩
      have hv : v = FreqVal.num n := hn
      simp [lookupNum, hv]
    · have hk : p.1 ≠ k := by
        intro he
        exact hnd.1 (he ▸ List.mem_map_of_mem Prod.fst h)
      simp only [lookupNum, if_neg (Ne.symm hk)]
      exact ih hnd.2 (fun q hq => hall q (by simp [hq])) p h

theorem mem_freqEntries_key {ts : List String} {p : String × FreqVal}
    (h : p ∈ freqEntries ts) : p.1 ∈ ts := by
  have hgen : ∀ (l : List String) (es : List (String × FreqVal)) (q : String × FreqVal),
      q ∈ l.foldl bump es → q.1 ∈ es.map Prod.fst ∨ q.1 ∈ l := by
    intro l
    induction l with
    | nil => intro es q hq; exact Or.inl (List.mem_map_of_mem Prod.fst hq)
    | cons t ts ih =>
      intro es q hq
      rcases ih (bump es t) q hq with h1 | h1
      · rcases mem_keys_bump h1 with h2 | h2
        · exact Or.inl h2
        · exact Or.inr (by simp [h2])
      · exact Or.inr (by simp [h1])
  rcases hgen ts [] p h with h1 | h1
  · simp at h1
  · exact h1

theorem mem_freqEntries_key_ne_proto {ts : List String} {p : String × FreqVal}
    (h : p ∈ freqEntries ts) : p.1 ≠ "__proto__" := by
  have hk : p.1 ∈ (freqEntries ts).map Prod.fst := List.mem_map_of_mem Prod.fst h
  revert hk
  unfold freqEntries
  refine fun hk =>
    foldl_invariant (fun es => ∀ k ∈ es.map Prod.fst, k ≠ "__proto__") bump ts []
      (by simp) ?_ p.1 hk
  intro es t _ hes k2 hk2
  rcases mem_keys_bump_strong hk2 with h2 | h2
  · exact hes k2 h2
  · exact h2.1 ▸ h2.2

theorem freqEntries_safe_values {ts : List String} (hc : "constructor" ∉ ts) :
    ∀ p ∈ freqEntries ts, p.2 = FreqVal.num (ts.count p.1) := by
  intro p hp
  have h1 := mem_value_eq_lookupNum (freqEntries ts) (freqEntries_keys_nodup ts)
    (allNum_freqEntries hc) p hp
  rw [h1]
  have h2 : lookupNum (freqEntries ts) p.1 = ts.count p.1 := by
    unfold freqEntries
    rw [lookupNum_foldl_bump ts [] p.1 hc (mem_freqEntries_key_ne_proto hp) allNum_nil]
    simp [lookupNum]
  rw [h2]

theorem mem_keys_freqEntries_of_token {ts : List String} {t : String}
    (ht : t ∈ ts) (hp : t ≠ "__proto__") : t ∈ (freqEntries ts).map Prod.fst := by
  rcases List.append_of_mem ht with ⟨l₁, l₂, rfl⟩
  unfold freqEntries
  rw [List.foldl_append]
  simp only [List.foldl_cons]
  refine foldl_invariant (fun es => t ∈ es.map Prod.fst) bump l₂ _ ?_
    (fun es u _ hes => keys_bump_mono u hes)
  exact keys_bump_self hp

/-! ### Stable-sort lemmas -/

theorem not_freqGE_elim {a b : String × FreqVal} (h : ¬ freqGE a b) :
    ∃ m n, a.2 = FreqVal.num m ∧ b.2 = FreqVal.num n ∧ m < n := by
  rcases a with ⟨ka, va⟩
  rcases b with ⟨kb, vb⟩
  unfold freqGE freqGEb at h
  cases va with
  | num m =>
    cases vb with
    | num n =>
      simp only [decide_eq_true_eq] at h
      exact ⟨m, n, rfl, rfl, by omega⟩
    | corrupt k => simp at h
  | corrupt k => simp at h

theorem freqGE_total (a b : String × FreqVal) : freqGE a b ∨ freqGE b a := by
  rcases a with ⟨ka, va⟩
  rcases b with ⟨kb, vb⟩
  unfold freqGE freqGEb
  cases va with
  | num m =>
    cases vb with
    | num n =>
      simp only [decide_eq_true_eq]
      omega
    | corrupt k => simp
  | corrupt k => simp

theorem freqGE_trans_mid {a b c : String × FreqVal} {n : Nat} (hb : b.2 = FreqVal.num n)
    (h1 : freqGE a b) (h2 : freqGE b c) : freqGE a c := by
  rcases a with ⟨ka, va⟩
  rcases b with ⟨kb, vb⟩
  rcases c with ⟨kc, vc⟩
  have hv : vb = FreqVal.num n := hb
  subst hv
  unfold freqGE freqGEb at h1 h2 ⊢
  cases va with
  | num m =>
    cases vc with
    | num p =>
      simp only [decide_eq_true_eq] at h1 h2 ⊢
      omega
    | corrupt k => simp
  | corrupt k => simp

theorem freqGE_num_le {a b : String × FreqVal} {m n : Nat} (ha : a.2 = FreqVal.num m)
    (hb : b.2 = FreqVal.num n) (h : freqGE a b) : n ≤ m := by
  rcases a with ⟨ka, va⟩
  rcases b with ⟨kb, vb⟩
  have hva : va = FreqVal.num m := ha
  have hvb : vb = FreqVal.num n := hb
  subst hva hvb
  unfold freqGE freqGEb at h
  simpa using h

theorem filter_orderedInsert_eq {c : FreqVal} {a : String × FreqVal} (h : a.2 = c) :
    ∀ l : List (String × FreqVal),
      (List.orderedInsert freqGE a l).filter (fun e => e.2 == c) =
        a :: l.filter (fun e => e.2 == c) := by
  intro l
  induction l with
  | nil => simp [List.orderedInsert, h]
  | cons b bs ih =>
    unfold List.orderedInsert
    by_cases hab : freqGE a b
    · rw [if_pos hab]
      simp [h]
    · rw [if_neg hab]
      rcases not_freqGE_elim hab with ⟨m, n, ham, hbn, hmn⟩
      have hbc : (b.2 == c) = false := by
        rw [hbn, ← h, ham]
        simp only [beq_eq_false_iff_ne, ne_eq]
        intro he
        injection he with he2
        omega
      simp only [List.filter_cons, hbc]
      rw [ih]
      simp [hbc]

theorem filter_orderedInsert_ne {c : FreqVal} {a : String × FreqVal} (h : a.2 ≠ c) :
    ∀ l : List (String × FreqVal),
      (List.orderedInsert freqGE a l).filter (fun e => e.2 == c) =
        l.filter (fun e => e.2 == c) := by
  intro l
  induction l with
  | nil => simp [List.orderedInsert, h]
  | cons b bs ih =>
    unfold List.orderedInsert
    by_cases hab : freqGE a b
    · rw [if_pos hab]
      simp [List.filter_cons, h]
    · rw [if_neg hab]
      simp only [List.filter_cons]
      rw [ih]

theorem filter_sortFreqDesc (c : FreqVal) :
    ∀ l : List (String × FreqVal),
      (sortFreqDesc l).filter (fun e => e.2 == c) = l.filter (fun e => e.2 == c) := by
  intro l
  induction l with
  | nil => rfl
  | cons a l ih =>
    unfold sortFreqDesc at ih ⊢
    show (List.orderedInsert freqGE a (List.insertionSort freqGE l)).filter _ = _
    by_cases h : a.2 = c
    · rw [filter_orderedInsert_eq h, ih]
      simp [h]
    · rw [filter_orderedInsert_ne h, ih]
      simp [h]

theorem sortFreqDesc_perm (es : List (String × FreqVal)) : List.Perm (sortFreqDesc es) es :=
  List.perm_insertionSort freqGE es

theorem mem_orderedInsert_cases {a x : String × FreqVal} :
    ∀ {l : List (String × FreqVal)}, x ∈ List.orderedInsert freqGE a l → x = a ∨ x ∈ l := by
  intro l
  induction l with
  | nil =>
    intro h
    simpa [List.orderedInsert] using h
  | cons b bs ih =>
    intro h
    unfold List.orderedInsert at h
    split at h
    · rcases List.mem_cons.mp h with h1 | h1
      · exact Or.inl h1
      · exact Or.inr h1
    · rcases List.mem_cons.mp h with h1 | h1
      · exact Or.inr (by simp [h1])
      · rcases ih h1 with h2 | h2
        · exact Or.inl h2
        · exact Or.inr (by simp [h2])

theorem pairwise_orderedInsert_allNum (a : String × FreqVal) :
    ∀ l, AllNum l → List.Pairwise freqGE l →
      List.Pairwise freqGE (List.orderedInsert freqGE a l) := by
  intro l
  induction l with
  | nil =>
    intro _ _
    simp [List.orderedInsert]
  | cons b bs ih =>
    intro hall hp
    rcases List.pairwise_cons.mp hp with ⟨hb, hbs⟩
    unfold List.orderedInsert
    by_cases hab : freqGE a b
    · rw [if_pos hab]
      refine List.pairwise_cons.mpr ⟨?_, hp⟩
      intro c hc
      rcases List.mem_cons.mp hc with rfl | hc2
      · exact hab
      · rcases hall b (by simp) with ⟨n, hn⟩
        exact freqGE_trans_mid hn hab (hb c hc2)
    · rw [if_neg hab]
      refine List.pairwise_cons.mpr ⟨?_, ih (fun q hq => hall q (by simp [hq])) hbs⟩
      intro c hc
      rcases mem_orderedInsert_cases hc with hca | hc2
      · rw [hca]
        rcases freqGE_total a b with h | h
        · exact absurd h hab
        · exact h
      · exact hb c hc2

theorem sortFreqDesc_pairwise_allNum :
    ∀ {l : List (String × FreqVal)}, AllNum l → List.Pairwise freqGE (sortFreqDesc l) := by
  intro l
  induction l with
  | nil =>
    intro _
    simp [sortFreqDesc, List.insertionSort]
  | cons a l ih =>
    intro hall
    have hall_l : AllNum l := fun q hq => hall q (by simp [hq])
    have hall_s : AllNum (List.insertionSort freqGE l) :=
      fun q hq => hall_l q ((List.perm_insertionSort freqGE l).subset hq)
    unfold sortFreqDesc at ih ⊢
    show List.Pairwise freqGE (List.orderedInsert freqGE a (List.insertionSort freqGE l))
    exact pairwise_orderedInsert_allNum a _ hall_s (ih hall_l)

theorem pairwise_imp_mem {α : Type} {R S : α → α → Prop} :
    ∀ {l : List α}, (∀ a b, a ∈ l → b ∈ l → R a b → S a b) → l.Pairwise R → l.Pairwise S := by
  intro l
  induction l with
  | nil => intro _ _; exact List.Pairwise.nil
  | cons x xs ih =>
    intro himp hp
    rcases List.pairwise_cons.mp hp with ⟨hx, hxs⟩
    refine List.pairwise_cons.mpr ⟨?_, ?_⟩
    · intro b hb
      exact himp x b (by simp) (by simp [hb]) (hx b hb)
    · exact ih (fun a b ha hb => himp a b (by simp [ha]) (by simp [hb])) hxs

/-! ### Object-enumeration lemmas -/

theorem filterPair_append_perm {α : Type} (p : α → Bool) (l : List α) :
    List.Perm (l.filter p ++ l.filter (fun x => !p x)) l := by
  induction l with
  | nil => simp
  | cons x xs ih =>
    by_cases hx : p x = true
    · rw [List.filter_cons_of_pos hx, List.filter_cons_of_neg (by simp [hx])]
      simpa using ih.cons x
    · rw [List.filter_cons_of_neg (by simp [hx]), List.filter_cons_of_pos (by simp [hx])]
      exact List.perm_middle.trans (ih.cons x)

theorem jsObjectEntries_perm (es : List (String × FreqVal)) :
    List.Perm (jsObjectEntries es) es := by
  unfold jsObjectEntries
  refine List.Perm.trans (List.Perm.append ?_ (List.Perm.refl _)) (filterPair_append_perm _ es)
  exact List.perm_insertionSort idxLE _

theorem mem_entriesOf {text : String} {p : String × FreqVal} (h : p ∈ entriesOf text) :
    p ∈ freqEntries (filteredTokens text) :=
  (jsObjectEntries_perm _).subset h

theorem entriesOf_safe_values {text : String} (hc : "constructor" ∉ filteredTokens text) :
    ∀ p ∈ entriesOf text, p.2 = FreqVal.num (wordFreq text p.1) :=
  fun p hp => freqEntries_safe_values hc p (mem_entriesOf hp)

theorem allNum_entriesOf {text : String} (hc : "constructor" ∉ filteredTokens text) :
    AllNum (entriesOf text) :=
  fun p hp => allNum_freqEntries hc p (mem_entriesOf hp)

theorem entriesOf_keys_nodup (text : String) : ((entriesOf text).map Prod.fst).Nodup :=
  (((jsObjectEntries_perm (freqEntries (filteredTokens text))).map Prod.fst).nodup_iff).mpr
    (freqEntries_keys_nodup _)

/-! ### Extractor membership chain -/

theorem mem_extractKeywords_token {text : String} {top : Int} {t : String}
    (h : t ∈ extractKeywords text top) : t ∈ filteredTokens text := by
  unfold extractKeywords at h
  rcases List.mem_map.mp h with ⟨p, hp, hpt⟩
  have h1 : p ∈ sortFreqDesc (entriesOf text) := mem_of_mem_jsSliceTo hp
  have h2 : p ∈ entriesOf text := (sortFreqDesc_perm _).subset h1
  have h3 : p.1 ∈ filteredTokens text := mem_freqEntries_key (mem_entriesOf h2)
  rwa [hpt] at h3

theorem mem_filteredTokens_long {text : String} {t : String} (h : t ∈ filteredTokens text) :
    2 < t.length ∧ t ∈ tokenize (cleanText text) := by
  unfold filteredTokens at h
  have := List.of_mem_filter h
  exact ⟨by simpa using this, List.mem_of_mem_filter h⟩

theorem extractKeywords_token_wordChars {text : String} {top : Int} {t : String}
    (h : t ∈ extractKeywords text top) :
    t.data ≠ [] ∧ ∀ c ∈ t.data, isWordChar c = true :=
  mem_tokenize (mem_filteredTokens_long (mem_extractKeywords_token h)).2

/-! ### Candidate-generation lemmas -/

theorem rule2Step_mono {s : List String} {x : String} (k : String) (h : x ∈ s) :
    x ∈ rule2Step s k :=
  mem_addCand_of_mem _ (mem_addCand_of_mem _ (mem_addCand_of_mem _ h))

theorem rule2_mono {s : List String} {x : String} (kws : List String) (h : x ∈ s) :
    x ∈ rule2 kws s :=
  foldl_invariant (fun a => x ∈ a) rule2Step kws s h (fun _ k _ ha => rule2Step_mono k ha)

theorem rule3fill_mono {x : String} :
    ∀ (tags : List String) (s : List String) (limit : Int), x ∈ s → x ∈ rule3fill s tags limit := by
  intro tags
  induction tags with
  | nil => intro s limit h; exact h
  | cons t ts ih =>
    intro s limit h
    unfold rule3fill
    split
    · exact h
    · exact ih _ limit (mem_addCand_of_mem _ h)

theorem mem_rule2Step_base (s : List String) (k : String) : stripWs k ∈ rule2Step s k :=
  mem_addCand_of_mem _ (mem_addCand_of_mem _ (mem_addCand_self s (stripWs k)))

theorem mem_rule2Step_tok (s : List String) (k : String) : stripWs k ++ "tok" ∈ rule2Step s k :=
  mem_addCand_of_mem _ (mem_addCand_self _ _)

theorem mem_rule2Step_tiktok (s : List String) (k : String) :
    stripWs k ++ "tiktok" ∈ rule2Step s k :=
  mem_addCand_self _ _

theorem mem_rule2_of_mem {kws : List String} {k : String} (hk : k ∈ kws) (s : List String) :
    stripWs k ∈ rule2 kws s ∧ stripWs k ++ "tok" ∈ rule2 kws s ∧
      stripWs k ++ "tiktok" ∈ rule2 kws s := by
  rcases List.append_of_mem hk with ⟨l₁, l₂, rfl⟩
  unfold rule2
  rw [List.foldl_append]
  simp only [List.foldl_cons]
  refine ⟨?_, ?_, ?_⟩
  · exact foldl_invariant (fun a => stripWs k ∈ a) rule2Step l₂ _
      (mem_rule2Step_base _ k) (fun a c _ ha => rule2Step_mono c ha)
  · exact foldl_invariant (fun a => stripWs k ++ "tok" ∈ a) rule2Step l₂ _
      (mem_rule2Step_tok _ k) (fun a c _ ha => rule2Step_mono c ha)
  · exact foldl_invariant (fun a => stripWs k ++ "tiktok" ∈ a) rule2Step l₂ _
      (mem_rule2Step_tiktok _ k) (fun a c _ ha => rule2Step_mono c ha)

theorem rule1_nil_tags (kws : List String) (s : List String) : rule1 kws [] s = s := by
  unfold rule1 rule1Step
  induction kws with
  | nil => rfl
  | cons k ks ih => simp [ih]

theorem rule3fill_nil_tags (s : List String) (limit : Int) : rule3fill s [] limit = s := rfl

/-! ### Candidate-set invariants -/

theorem addCand_pres_no_hash {s : List String} {y : String}
    (hs : ∀ z ∈ s, leadHash z = false) (hy : leadHash y = false) :
    ∀ z ∈ addCand s y, leadHash z = false := by
  intro z hz
  rcases mem_addCand hz with h | h
  · exact hs z h
  · exact h ▸ hy

theorem rule1Step_no_hash {tags : List String} (htags : ∀ t ∈ tags, leadTwoHash t = false)
    {s : List String} (hs : ∀ z ∈ s, leadHash z = false) (k : String) :
    ∀ z ∈ rule1Step tags s k, leadHash z = false := by
  unfold rule1Step
  refine foldl_invariant (fun a => ∀ z ∈ a, leadHash z = false) _ tags s hs ?_
  intro a tag htag ha
  split
  · exact addCand_pres_no_hash ha (leadHash_stripLeadingHash (htags tag htag))
  · exact ha

theorem rule1_no_hash {kws tags : List String} (htags : ∀ t ∈ tags, leadTwoHash t = false)
    {s : List String} (hs : ∀ z ∈ s, leadHash z = false) :
    ∀ z ∈ rule1 kws tags s, leadHash z = false := by
  unfold rule1
  exact foldl_invariant (fun a => ∀ z ∈ a, leadHash z = false) (rule1Step tags) kws s hs
    (fun a k _ ha => rule1Step_no_hash htags ha k)

theorem leadHash_append_of_false {a b : String} (ha : leadHash a = false)
    (hb : leadHash b = false) : leadHash (a ++ b) = false := by
  unfold leadHash at ha hb ⊢
  have hd : (a ++ b).data = a.data ++ b.data := rfl
  rw [hd]
  cases h : a.data with
  | nil =>
    rw [h] at ha
    simpa using hb
  | cons c cs =>
    rw [h] at ha
    simpa using ha

theorem rule2Step_no_hash {s : List String} (hs : ∀ z ∈ s, leadHash z = false)
    {k : String} (hk : leadHash (stripWs k) = false) :
    ∀ z ∈ rule2Step s k, leadHash z = false := by
  unfold rule2Step
  refine addCand_pres_no_hash (addCand_pres_no_hash (addCand_pres_no_hash hs hk) ?_) ?_
  · exact leadHash_append_of_false hk (by decide)
  · exact leadHash_append_of_false hk (by decide)

theorem rule2_no_hash {kws : List String} (hkws : ∀ k ∈ kws, leadHash (stripWs k) = false)
    {s : List String} (hs : ∀ z ∈ s, leadHash z = false) :
    ∀ z ∈ rule2 kws s, leadHash z = false := by
  unfold rule2
  exact foldl_invariant (fun a => ∀ z ∈ a, leadHash z = false) rule2Step kws s hs
    (fun a k hk ha => rule2Step_no_hash ha (hkws k hk))

theorem rule3fill_no_hash {tags : List String} (htags : ∀ t ∈ tags, leadTwoHash t = false) :
    ∀ (s : List String) (limit : Int), (∀ z ∈ s, leadHash z = false) →
      ∀ z ∈ rule3fill s tags limit, leadHash z = false := by
  induction tags with
  | nil => intro s limit hs; exact hs
  | cons t ts ih =>
    intro s limit hs
    unfold rule3fill
    split
    · exact hs
    · exact ih (fun u hu => htags u (by simp [hu])) _ limit
        (addCand_pres_no_hash hs (leadHash_stripLeadingHash (htags t (by simp))))

theorem generateCandidates_no_hash {kws tags : List String} {limit : Int}
    (hkws : ∀ k ∈ kws, leadHash (stripWs k) = false)
    (htags : ∀ t ∈ tags, leadTwoHash t = false) :
    ∀ z ∈ generateCandidates kws tags limit, leadHash z = false := by
  unfold generateCandidates rule12
  exact rule3fill_no_hash htags _ limit
    (rule2_no_hash hkws (rule1_no_hash htags (by simp)))

/-! ### Candidate-set duplicate freedom -/

theorem rule1Step_nodup {tags : List String} {s : List String} (hs : s.Nodup) (k : String) :
    (rule1Step tags s k).Nodup := by
  unfold rule1Step
  refine foldl_invariant (fun a => a.Nodup) _ tags s hs ?_
  intro a tag _ ha
  split
  · exact addCand_nodup ha _
  · exact ha

theorem rule2Step_nodup {s : List String} (hs : s.Nodup) (k : String) :
    (rule2Step s k).Nodup :=
  addCand_nodup (addCand_nodup (addCand_nodup hs _) _) _

theorem rule3fill_nodup :
    ∀ (tags : List String) (s : List String) (limit : Int), s.Nodup →
      (rule3fill s tags limit).Nodup := by
  intro tags
  induction tags with
  | nil => intro s limit hs; exact hs
  | cons t ts ih =>
    intro s limit hs
    unfold rule3fill
    split
    · exact hs
    · exact ih _ limit (addCand_nodup hs _)

theorem generateCandidates_nodup (kws tags : List String) (limit : Int) :
    (generateCandidates kws tags limit).Nodup := by
  unfold generateCandidates rule12 rule1 rule2
  refine rule3fill_nodup tags _ limit ?_
  refine foldl_invariant (fun a => a.Nodup) rule2Step kws _ ?_
    (fun a k _ ha => rule2Step_nodup ha k)
  exact foldl_invariant (fun a => a.Nodup) (rule1Step tags) kws [] (by simp)
    (fun a k _ ha => rule1Step_nodup ha k)

/-! ### Rule-3 size bound -/

theorem rule3fill_length_le :
    ∀ (tags : List String) (s : List String) (limit : Int),
      ((rule3fill s tags limit).length : Int) ≤ max (s.length : Int) limit := by
  intro tags
  induction tags with
  | nil =>
    intro s limit
    simp [rule3fill]
  | cons t ts ih =>
    intro s limit
    unfold rule3fill
    split
    · simp
    · rename_i hlt
      refine le_trans (ih _ limit) ?_
      have h1 := length_addCand_le s (stripLeadingHash t)
      have h2 : ¬ ((s.length : Int) ≥ limit) := hlt
      have : ((addCand s (stripLeadingHash t)).length : Int) ≤ limit := by
        omega
      omega

/-! ### Assembly lemmas -/

theorem assemble_length_le (cands : List String) {limit : Int} (h : 0 ≤ limit) :
    ((assemble cands limit).length : Int) ≤ limit := by
  unfold assemble
  rw [List.length_map]
  exact length_jsSliceTo_le _ h

theorem mem_assemble {cands : List String} {limit : Int} {y : String}
    (h : y ∈ assemble cands limit) :
    ∃ x ∈ cands, y = (if strStartsWith x "#" then x else "#" ++ x) := by
  unfold assemble at h
  rcases List.mem_map.mp h with ⟨x, hx, hxy⟩
  exact ⟨x, mem_of_mem_jsSliceTo hx, hxy.symm⟩

theorem singleHash_of_le_one {x : String} (h : leadTwoHash x = false) :
    startsWithSingleHash (if strStartsWith x "#" then x else "#" ++ x) = true := by
  unfold startsWithSingleHash
  by_cases hx : strStartsWith x "#" = true
  · rw [if_pos hx, hx, strStartsWith_hashhash, h]
    rfl
  · rw [if_neg hx, strStartsWith_hash, leadHash_hash_append, strStartsWith_hashhash,
      leadTwoHash_hash_append]
    rw [strStartsWith_hash] at hx
    rw [Bool.not_eq_true] at hx
    rw [hx]
    rfl

theorem assemble_nodup {cands : List String} (limit : Int) (hnd : cands.Nodup)
    (hnh : ∀ x ∈ cands, leadHash x = false) : (assemble cands limit).Nodup := by
  unfold assemble
  refine List.Nodup.map_on ?_ (List.Nodup.sublist (jsSliceTo_sublist cands limit) hnd)
  intro x hx y hy hxy
  have hx2 : ¬ (strStartsWith x "#" = true) := by
    rw [strStartsWith_hash, hnh x (mem_of_mem_jsSliceTo hx)]
    simp
  have hy2 : ¬ (strStartsWith y "#" = true) := by
    rw [strStartsWith_hash, hnh y (mem_of_mem_jsSliceTo hy)]
    simp
  rw [if_neg hx2, if_neg hy2] at hxy
  exact hash_append_inj hxy

/-! ### Handler-unfolding lemmas -/

theorem generateHandlerWith_invalid (extract : String → Int → List String)
    (req : GenerateRequest) (store : List (String × TrendDoc)) (h : textInvalid req.text) :
    generateHandlerWith extract req store = .badRequest "Provide text" := by
  unfold textInvalid at h
  simp only [generateHandlerWith]
  rw [if_pos h]

theorem generateHandlerWith_valid (extract : String → Int → List String)
    (req : GenerateRequest) (store : List (String × TrendDoc)) (h : ¬ textInvalid req.text) :
    generateHandlerWith extract req store =
      .ok
        (assemble
          (generateCandidates (extract (req.text.getD "") 10)
            (trendListOf (getTrending store (req.country.getD "global")))
            (req.limit.getD 12))
          (req.limit.getD 12))
        (extract (req.text.getD "") 10)
        (getTrending store (req.country.getD "global")).updatedAt := by
  unfold textInvalid at h
  simp only [generateHandlerWith]
  rw [if_neg h]

/-! ### Additional bridging lemmas for the claims -/

theorem nodup_map_fst_jsSliceTo {l : List (String × FreqVal)} {top : Int}
    (h : (l.map Prod.fst).Nodup) : ((jsSliceTo l top).map Prod.fst).Nodup := by
  unfold jsSliceTo
  rw [List.map_take]
  exact List.Nodup.sublist (List.take_sublist _ _) h

/-! ### Claims -/

/-- Claim C1, counterexample: as stated over every candidate set and every integer
limit, the assembly guarantee fails — with `limit = -1` the JS `slice(0, -1)` keeps
`length - 1` elements (so the length bound `≤ limit` fails), and a candidate that
already starts with two `'#'` characters is passed through unchanged (so "exactly
one `'#'`" fails). -/
theorem claim_C1_counterexample :
    ¬ ((((assemble ["##a", "b"] (-1)).length : Int) ≤ -1) ∧
      ∀ x ∈ assemble ["##a", "b"] (-1), startsWithSingleHash x = true) := by
  decide

/-- Claim C1, amended: for every candidate set whose elements start with at most one
`'#'` character and every nonnegative integer limit, the assembled list has length at
most `limit` and every element starts with exactly one `'#'`. -/
theorem claim_C1_amended (candidates : List String) (limit : Int) (hl : 0 ≤ limit)
    (hc : ∀ x ∈ candidates, strStartsWith x "##" = false) :
    ((assemble candidates limit).length : Int) ≤ limit ∧
      ∀ y ∈ assemble candidates limit, startsWithSingleHash y = true := by
  refine ⟨assemble_length_le candidates hl, ?_⟩
  intro y hy
  rcases mem_assemble hy with ⟨x, hx, rfl⟩
  refine singleHash_of_le_one ?_
  rw [← strStartsWith_hashhash]
  exact hc x hx

/-- Witness for the amended claim C1 at a concrete candidate set and limit. -/
theorem claim_C1_witness :
    ((assemble ["abc", "#def"] 2).length : Int) ≤ 2 ∧
      ∀ y ∈ assemble ["abc", "#def"] 2, startsWithSingleHash y = true :=
  claim_C1_amended ["abc", "#def"] 2 (by decide) (by decide)

/-- Claim C2: a request whose `text` is absent or has trimmed length < 3 gets the 400
validation response and the keyword extractor is never consulted (the handler's result
is the same for every extractor); every other request invokes the extractor (the
response's keywords are exactly `extractKeywords(text, 10)`).  The code's condition
`!text || text.trim().length < 3` is equivalent to the claim's "absent or trimmed
length < 3". -/
theorem claim_C2_validation (req : GenerateRequest) (store : List (String × TrendDoc)) :
    (textInvalid req.text ↔ generateHandler req store = .badRequest "Provide text") ∧
    (textInvalid req.text ↔ (req.text = none ∨ (jsTrim (req.text.getD "")).length < 3)) ∧
    (textInvalid req.text →
      ∀ f g : String → Int → List String,
        generateHandlerWith f req store = generateHandlerWith g req store) ∧
    (¬ textInvalid req.text →
      keywordsOf (generateHandler req store) = some (extractKeywords (req.text.getD "") 10)) := by
  refine ⟨⟨?_, ?_⟩, ?_, ?_, ?_⟩
  · intro h
    exact generateHandlerWith_invalid _ req store h
  · intro h
    by_contra hv
    unfold generateHandler at h
    rw [generateHandlerWith_valid _ req store hv] at h
    exact HandlerResult.noConfusion h
  · cases ht : req.text with
    | none => simp [textInvalid]
    | some s =>
      unfold textInvalid
      simp only [Option.getD_some]
      constructor
      · rintro (rfl | h)
        · exact Or.inr (by decide)
        · exact Or.inr h
      · rintro (h | h)
        · exact absurd h (by simp)
        · exact Or.inr h
  · intro h f g
    rw [generateHandlerWith_invalid f req store h, generateHandlerWith_invalid g req store h]
  · intro h
    unfold generateHandler
    rw [generateHandlerWith_valid _ req store h]
    rfl

/-- Witness for claim C2 at a concrete valid request. -/
theorem claim_C2_witness :
    keywordsOf (generateHandler ⟨some "hello world", none, none⟩ []) =
      some (extractKeywords "hello world" 10) :=
  (claim_C2_validation ⟨some "hello world", none, none⟩ []).2.2.2 (by decide)

/-- Claim C3, counterexample: the generation rules strip only one leading `'#'`, so a
trend tag `"##fun"` matched by keyword `"fun"` contributes the candidate `"#fun"`,
which has a leading `'#'`; likewise a keyword that itself starts with `'#'` makes
rule 2 emit `'#'`-leading candidates. -/
theorem claim_C3_counterexample :
    ¬ ((∀ x ∈ generateCandidates ["fun"] ["##fun"] 12, strStartsWith x "#" = false) ∧
      (∀ x ∈ generateCandidates ["#abc"] [] 12, strStartsWith x "#" = false)) := by
  decide

/-- Claim C3, amended: if no keyword starts with `'#'` after whitespace removal and no
trend tag starts with two `'#'` characters, the candidate set contains only strings
without a leading `'#'`. -/
theorem claim_C3_amended (kws tags : List String) (limit : Int)
    (hkws : ∀ k ∈ kws, strStartsWith (stripWs k) "#" = false)
    (htags : ∀ t ∈ tags, strStartsWith t "##" = false) :
    ∀ x ∈ generateCandidates kws tags limit, strStartsWith x "#" = false := by
  intro x hx
  rw [strStartsWith_hash]
  refine generateCandidates_no_hash ?_ ?_ x hx
  · intro k hk
    have h := hkws k hk
    rwa [strStartsWith_hash] at h
  · intro t ht
    have h := htags t ht
    rwa [strStartsWith_hashhash] at h

/-- Witness for the amended claim C3 at a concrete keyword list, tag list and
candidate. -/
theorem claim_C3_witness : strStartsWith "dance" "#" = false :=
  claim_C3_amended ["dance"] ["#trend"] 12 (by decide) (by decide) "dance" (by decide)

/-- Claim C4: rules 1 and 2 run unconditionally — everything they insert is still in
the final candidate set for every `limit` — while rule 3 stops as soon as the set has
at least `limit` members, so the final size is at most
`max (size after rules 1-2) limit`; the size can nevertheless exceed `limit`
(witnessed concretely at `limit = 0`). -/
theorem claim_C4_rules_unconditional :
    (∀ (kws tags : List String) (limit : Int),
      (∀ x ∈ rule12 kws tags, x ∈ generateCandidates kws tags limit) ∧
      ((generateCandidates kws tags limit).length : Int) ≤
        max ((rule12 kws tags).length : Int) limit) ∧
    0 < ((generateCandidates ["abc"] [] 0).length : Int) := by
  refine ⟨?_, by decide⟩
  intro kws tags limit
  refine ⟨?_, rule3fill_length_le tags _ limit⟩
  intro x hx
  exact rule3fill_mono tags _ limit hx

/-- Witness for claim C4: a rule-2 candidate survives even at `limit = 0`. -/
theorem claim_C4_witness : "abc" ∈ generateCandidates ["abc"] [] 0 :=
  (claim_C4_rules_unconditional.1 ["abc"] [] 0).1 "abc" (by decide)

/-- Claim C5, counterexample: the frequency map is a plain object, so `freq[t]`
consults the prototype chain.  For the token `"constructor"` the first lookup
yields the inherited truthy `Object` constructor and the stored count becomes a
non-numeric string; the comparator `b[1] - a[1]` is then `NaN`, a tie under
`SortCompare`, so on `"constructor nice nice"` the program returns
`["constructor", "nice"]` — frequency 1 ordered before frequency 2, refuting
"sorts distinct tokens by descending in-text frequency".  Assigning to
`"__proto__"` hits the inherited setter and creates no own property, so that
token silently vanishes from the output even though `top` would admit it. -/
theorem claim_C5_counterexample :
    extractKeywords "constructor nice nice" 10 = ["constructor", "nice"] ∧
    wordFreq "constructor nice nice" "constructor" = 1 ∧
    wordFreq "constructor nice nice" "nice" = 2 ∧
    ¬ List.Pairwise
        (fun a b => wordFreq "constructor nice nice" b ≤ wordFreq "constructor nice nice" a)
        (extractKeywords "constructor nice nice" 10) ∧
    "__proto__" ∈ filteredTokens "__proto__ nice" ∧
    extractKeywords "__proto__ nice" 10 = ["nice"] := by
  refine ⟨by decide, by decide, by decide, ?_, by decide, by decide⟩
  intro h
  have h1 : extractKeywords "constructor nice nice" 10 = ["constructor", "nice"] := by decide
  rw [h1] at h
  exact absurd ((List.pairwise_cons.mp h).1 "nice" (by simp)) (by decide)

/-- Claim C5, amended: for every text none of whose length-filtered tokens collides
with an inherited `Object.prototype` property of token shape (the names
`"constructor"` and `"__proto__"`), the extractor returns distinct tokens in weakly
descending in-text frequency; on equal frequency the enumeration order of the
frequency structure is preserved (stable sort: filtering any single stored value
commutes with the sort); every such token is among the enumerated keys and the
result is the `top`-prefix of the sorted key list; and the handler always calls the
extractor with `top = 10`, whatever `limit` the caller supplied. -/
theorem claim_C5_amended (text : String) (top : Int) (c : FreqVal)
    (req : GenerateRequest) (store : List (String × TrendDoc))
    (hsafe1 : "constructor" ∉ filteredTokens text)
    (hsafe2 : "__proto__" ∉ filteredTokens text) :
    (extractKeywords text top).Nodup ∧
    List.Pairwise (fun a b => wordFreq text b ≤ wordFreq text a) (extractKeywords text top) ∧
    (sortFreqDesc (entriesOf text)).filter (fun e => e.2 == c) =
      (entriesOf text).filter (fun e => e.2 == c) ∧
    (∀ t ∈ filteredTokens text, t ∈ (entriesOf text).map Prod.fst) ∧
    extractKeywords text top = (jsSliceTo (sortFreqDesc (entriesOf text)) top).map Prod.fst ∧
    keywordsOf (generateHandler req store) =
      (if textInvalid req.text then none else some (extractKeywords (req.text.getD "") 10)) := by
  refine ⟨?_, ?_, filter_sortFreqDesc c (entriesOf text), ?_, rfl, ?_⟩
  · refine nodup_map_fst_jsSliceTo ?_
    exact (((sortFreqDesc_perm (entriesOf text)).map Prod.fst).nodup_iff).mpr
      (entriesOf_keys_nodup text)
  · have hsorted := sortFreqDesc_pairwise_allNum (allNum_entriesOf hsafe1)
    have hmemval : ∀ p ∈ sortFreqDesc (entriesOf text), p.2 = FreqVal.num (wordFreq text p.1) :=
      fun p hp => entriesOf_safe_values hsafe1 p ((sortFreqDesc_perm _).subset hp)
    have h2 : List.Pairwise
        (fun a b : String × FreqVal => wordFreq text b.1 ≤ wordFreq text a.1)
        (sortFreqDesc (entriesOf text)) := by
      refine pairwise_imp_mem ?_ hsorted
      intro a b ha hb hr
      exact freqGE_num_le (hmemval a ha) (hmemval b hb) hr
    have h3 := List.Pairwise.sublist (jsSliceTo_sublist (sortFreqDesc (entriesOf text)) top) h2
    exact List.pairwise_map.mpr h3
  · intro t ht
    have hp : t ≠ "__proto__" := fun he => hsafe2 (he ▸ ht)
    have h1 := mem_keys_freqEntries_of_token ht hp
    exact (((jsObjectEntries_perm (freqEntries (filteredTokens text))).map
      Prod.fst).mem_iff).mpr h1
  · by_cases h : textInvalid req.text
    · rw [if_pos h]
      unfold generateHandler
      rw [generateHandlerWith_invalid _ req store h]
      rfl
    · rw [if_neg h]
      unfold generateHandler
      rw [generateHandlerWith_valid _ req store h]
      rfl

/-- Witness for the amended claim C5 at a concrete prototype-safe text. -/
theorem claim_C5_witness : (extractKeywords "hello world" 10).Nodup :=
  (claim_C5_amended "hello world" 10 (FreqVal.num 1) ⟨some "hello world", none, none⟩ []
    (by decide) (by decide)).1

/-- Claim C6: every token returned by the extractor has length strictly greater
than 2, for every input text and every `top`. -/
theorem claim_C6_token_length (text : String) (top : Int) (t : String)
    (h : t ∈ extractKeywords text top) : 2 < t.length :=
  (mem_filteredTokens_long (mem_extractKeywords_token h)).1

/-- Witness for claim C6 at a concrete input. -/
theorem claim_C6_witness : "hello" ∈ extractKeywords "hello world" 10 ∧ 2 < "hello".length :=
  ⟨by decide, claim_C6_token_length "hello world" 10 "hello" (by decide)⟩

/-- Claim C7: a missing snapshot document reads back as the default
`{ updatedAt: null, hashtags: [] }` (never an error), and a valid generate request
against that empty snapshot still succeeds, with candidates coming from rule-2
keyword variations only and `sourceUpdatedAt` equal to `null`. -/
theorem claim_C7_empty_snapshot (store : List (String × TrendDoc)) (country : String)
    (req : GenerateRequest) (text : String) :
    (List.lookup (jsToLower country) store = none →
      getTrending store country = { updatedAt := none, hashtags := [] }) ∧
    (req.text = some text → ¬ textInvalid req.text →
      getTrending store (req.country.getD "global") = { updatedAt := none, hashtags := [] } →
      generateHandler req store =
        .ok (assemble (rule2 (extractKeywords text 10) []) (req.limit.getD 12))
          (extractKeywords text 10) none) := by
  constructor
  · intro h
    unfold getTrending
    rw [h]
  · intro ht hv hsnap
    unfold generateHandler
    rw [generateHandlerWith_valid _ req store hv, ht, hsnap]
    simp only [Option.getD_some]
    have htl : trendListOf { updatedAt := none, hashtags := [] } = [] := rfl
    rw [htl]
    unfold generateCandidates rule12
    rw [rule3fill_nil_tags, rule1_nil_tags]

/-- Witness for claim C7: a fully concrete request against the empty store. -/
theorem claim_C7_witness :
    generateHandler ⟨some "hello world", some "nowhere", some 5⟩ [] =
      .ok ["#hello", "#hellotok", "#hellotiktok", "#world", "#worldtok"]
        ["hello", "world"] none := by
  have h := (claim_C7_empty_snapshot [] "nowhere" ⟨some "hello world", some "nowhere", some 5⟩
    "hello world").2 rfl (by decide) (by decide)
  exact h.trans (by decide)

/-- Claim C8: for every keyword `k` of the request, rule 2 places `base`,
`base ++ "tok"` and `base ++ "tiktok"` (with `base` the keyword stripped of all
whitespace) into the candidate set before any truncation. -/
theorem claim_C8_rule2_members (kws tags : List String) (limit : Int) (k : String)
    (hk : k ∈ kws) :
    stripWs k ∈ generateCandidates kws tags limit ∧
    stripWs k ++ "tok" ∈ generateCandidates kws tags limit ∧
    stripWs k ++ "tiktok" ∈ generateCandidates kws tags limit := by
  have h := mem_rule2_of_mem hk (rule1 kws tags [])
  unfold generateCandidates rule12
  exact ⟨rule3fill_mono tags _ limit h.1, rule3fill_mono tags _ limit h.2.1,
    rule3fill_mono tags _ limit h.2.2⟩

/-- Witness for claim C8: keyword `"dance"` with no trend matches yields the three
candidates `"dance"`, `"dancetok"`, `"dancetiktok"`. -/
theorem claim_C8_witness :
    "dance" ∈ generateCandidates ["dance"] [] 12 ∧
    "dancetok" ∈ generateCandidates ["dance"] [] 12 ∧
    "dancetiktok" ∈ generateCandidates ["dance"] [] 12 := by
  have h := claim_C8_rule2_members ["dance"] [] 12 "dance" (by decide)
  have e1 : stripWs "dance" = "dance" := by decide
  have e2 : stripWs "dance" ++ "tok" = "dancetok" := by decide
  have e3 : stripWs "dance" ++ "tiktok" = "dancetiktok" := by decide
  exact ⟨e1 ▸ h.1, e2 ▸ h.2.1, e3 ▸ h.2.2⟩

/-- Claim C9, counterexample: the frequency-map enumeration order is not the pure
insertion order the claim asserts — ECMAScript hoists integer-like keys (here the
token `"111"`) ahead of the other keys, which is observable in the extractor output
on a frequency tie. -/
theorem claim_C9_counterexample :
    extractKeywords "zzz 111 zzz 111" 10 = ["111", "zzz"] ∧
    extractKeywordsInsOrder "zzz 111 zzz 111" 10 = ["zzz", "111"] ∧
    extractKeywords "zzz 111 zzz 111" 10 ≠ extractKeywordsInsOrder "zzz 111 zzz 111" 10 := by
  exact ⟨by decide, by decide, by decide⟩

/-- Claim C9, amended: the pipeline is deterministic — two runs with equal text, equal
limit and an identical fetched trend snapshot produce identical responses, including
element order.  (The candidate `Set` does iterate in insertion order, but the
frequency map enumerates integer-like keys first in ascending numeric order and only
the remaining keys in insertion order.) -/
theorem claim_C9_deterministic (r₁ r₂ : GenerateRequest)
    (s₁ s₂ : List (String × TrendDoc))
    (ht : r₁.text = r₂.text) (hl : r₁.limit = r₂.limit)
    (hs : getTrending s₁ (r₁.country.getD "global") =
      getTrending s₂ (r₂.country.getD "global")) :
    generateHandler r₁ s₁ = generateHandler r₂ s₂ := by
  by_cases hv : textInvalid r₁.text
  · unfold generateHandler
    rw [generateHandlerWith_invalid _ _ _ hv, generateHandlerWith_invalid _ _ _ (ht ▸ hv)]
  · have hv₂ : ¬ textInvalid r₂.text := ht ▸ hv
    unfold generateHandler
    rw [generateHandlerWith_valid _ _ _ hv, generateHandlerWith_valid _ _ _ hv₂, ht, hl, hs]

/-- Witness for the amended claim C9: equal text, limit and (default) snapshot give
equal responses even for different country strings. -/
theorem claim_C9_witness :
    generateHandler ⟨some "abc def", some "de", some 3⟩ [] =
      generateHandler ⟨some "abc def", some "fr", some 3⟩ [] :=
  claim_C9_deterministic _ _ _ _ rfl rfl rfl

/-- Claim C10: when every trend tag of the fetched snapshot has at most one leading
`'#'`, the `generated` list of the response is duplicate-free (the `'#'`-prefixing
step introduces no collisions). -/
theorem claim_C10_generated_distinct (req : GenerateRequest) (store : List (String × TrendDoc))
    (hhash : ∀ t ∈ trendListOf (getTrending store (req.country.getD "global")),
      strStartsWith t "##" = false) :
    (generatedOf (generateHandler req store)).Nodup := by
  by_cases hv : textInvalid req.text
  · unfold generateHandler
    rw [generateHandlerWith_invalid _ _ _ hv]
    exact List.nodup_nil
  · unfold generateHandler
    rw [generateHandlerWith_valid _ _ _ hv]
    show (assemble _ _).Nodup
    refine assemble_nodup _ (generateCandidates_nodup _ _ _) ?_
    refine generateCandidates_no_hash ?_ ?_
    · intro k hk
      have hw := extractKeywords_token_wordChars hk
      rw [token_stripWs_eq hw.2]
      exact token_leadHash_false hw.1 hw.2
    · intro t ht
      have h := hhash t ht
      rwa [strStartsWith_hashhash] at h

/-- Witness for claim C10 at a concrete request against the empty store. -/
theorem claim_C10_witness :
    (generatedOf (generateHandler ⟨some "hello world", none, some 4⟩ [])).Nodup :=
  claim_C10_generated_distinct ⟨some "hello world", none, some 4⟩ [] (by decide)
